import Mathlib

set_option maxRecDepth 100000

/-!
Shallow embedding of `src/main.py` (libmd): a CSV-of-books to Markdown
converter.  The input CSV is modelled as a list of `Record`s (the CSV
parsing itself is delegated to pandas in the source and is out of scope);
the output file is modelled as a `String`.  Python exceptions are modelled
with `Option`/`Except`; the partially written output file on failure is
the `Except.error` payload.

The Python string primitives the program uses (`in`, `split`, `strip`,
`<` on `str`) are given structurally recursive definitions over `List
Char` so that every definition evaluates inside the kernel.
-/

namespace LibMd

/-- One row of the input CSV, with the columns the program reads.
`Pages` is never used by `md_from_csv`, so it is omitted. -/
structure Record where
  category : String
  authors : String
  title : String
  isbn10 : String
  isbn13 : String
deriving DecidableEq, Repr

/-! ### Python string primitives -/

/-- Substring occurrence test on character lists; `chContains pat s` is
Python `pat in s`. -/
def chContains (pat : List Char) : List Char → Bool
  | [] => decide (pat = [])
  | c :: cs => pat.isPrefixOf (c :: cs) || chContains pat cs

/-- Python `pat in s` on strings. -/
def containsSub (s pat : String) : Bool :=
  chContains pat.data s.data

/-- Split a character list at every character satisfying `p`, keeping
empty pieces; `acc` holds the current piece reversed. -/
def chSplitPred (p : Char → Bool) (acc : List Char) : List Char → List (List Char)
  | [] => [acc.reverse]
  | c :: cs =>
    if p c then acc.reverse :: chSplitPred p [] cs
    else chSplitPred p (c :: acc) cs

/-- Split a character list on every non-overlapping occurrence of `sep`,
scanning left to right, keeping empty pieces (Python `s.split(sep)` for a
non-empty `sep`).  `fuel` bounds the recursion; each step consumes at
least one character, so any `fuel ≥ length` gives the full scan. -/
def chSplitOn (sep : List Char) : Nat → List Char → List Char → List (List Char)
  | 0, acc, _ => [acc.reverse]
  | _ + 1, acc, [] => [acc.reverse]
  | fuel + 1, acc, c :: cs =>
    if sep.isPrefixOf (c :: cs) ∧ sep ≠ [] then
      acc.reverse :: chSplitOn sep fuel [] ((c :: cs).drop sep.length)
    else
      chSplitOn sep fuel (c :: acc) cs

/-- Python `s.split(sep)` (with `sep` non-empty). -/
def pySplitOn (s sep : String) : List String :=
  (chSplitOn sep.data s.data.length [] s.data).map String.mk

/-- Python `s.strip()`: drop whitespace from both ends. -/
def chTrim (l : List Char) : List Char :=
  ((l.dropWhile Char.isWhitespace).reverse.dropWhile Char.isWhitespace).reverse

/-- Python `s.strip()` on strings. -/
def pyStrip (s : String) : String :=
  String.mk (chTrim s.data)

/-- Python `s.split()` with no arguments: split on whitespace and drop the
empty pieces. -/
def pysplit (s : String) : List String :=
  ((chSplitPred Char.isWhitespace [] s.data).filter (fun l => l ≠ [])).map String.mk

/-- Python `str` comparison `s < t`: lexicographic by code point. -/
def chLt : List Char → List Char → Bool
  | [], [] => false
  | [], _ :: _ => true
  | _ :: _, [] => false
  | a :: as, b :: bs => if a = b then chLt as bs else decide (a < b)

/-- Python `str` comparison `s ≤ t`. -/
def chLe (s t : List Char) : Bool :=
  chLt s t || decide (s = t)

/-! ### `get_last_names` (main.py:15-52) -/

/-- The `author_list` comprehension of `get_last_names` (main.py:22-24):
split on `" and "`, split each part on `","`, keep the non-empty pieces
(tested before stripping, as in the source) and strip each. -/
def authorList (authors : String) : List String :=
  ((((pySplitOn authors " and ").map (fun part => pySplitOn part ",")).flatten).filter
      (fun a => a ≠ "")).map pyStrip

/-- Outcome of one iteration of the `for author in author_list` loop body
(main.py:28-45): a value appended to `formatted_authors`, nothing appended
(empty `parts`), or an `IndexError` from `parts[-2]`. -/
inductive FormatResult where
  | name (s : String)
  | skipped
  | error
deriving DecidableEq, Repr

/-- Loop body of `get_last_names` for one author substring
(main.py:28-45). -/
def formatAuthor (author : String) : FormatResult :=
  if containsSub author "et al." then .name author
  else
    let parts := pysplit author
    match parts.getLast? with
    | none => .skipped
    | some lastTok =>
      if lastTok = "Jr." then
        if 2 ≤ parts.length then .name (parts.getD (parts.length - 2) "")
        else .error
      else .name lastTok

/-- The whole `for` loop: build `formatted_authors`, propagating the
`IndexError` (as `none`) if any iteration raises. -/
def formatAll : List String → Option (List String)
  | [] => some []
  | a :: as =>
    match formatAuthor a with
    | .error => none
    | .skipped => formatAll as
    | .name s => (formatAll as).map (fun rest => s :: rest)

/-- Python `sep.join(xs)`. -/
def joinSep (sep : String) : List String → String
  | [] => ""
  | [x] => x
  | x :: y :: rest => x ++ sep ++ joinSep sep (y :: rest)

/-- The return logic of `get_last_names` (main.py:49-52):
`", ".join(formatted_authors[:-1]) + " & " + formatted_authors[-1]` when
more than one entry, the sole entry otherwise; `formatted_authors[0]`
raises `IndexError` (modelled as `none`) on an empty list. -/
def joinNames : List String → Option String
  | [] => none
  | [x] => some x
  | xs@(_ :: _ :: _) => some (joinSep ", " xs.dropLast ++ " & " ++ xs.getLastD "")

/-- `get_last_names` (main.py:15-52), with `none` standing for a raised
`IndexError`. -/
def getLastNames (authors : String) : Option String :=
  (formatAll (authorList authors)).bind joinNames

/-! ### `md_from_csv` (main.py:55-96) -/

/-- Python `sorted` on strings compares with `<` (lexicographic by code
point); this is the corresponding `≤`. -/
def strLe (s t : String) : Bool :=
  chLe s.data t.data

/-- `strLe` as a relation, for use with `List.insertionSort`. -/
def StrLeRel (s t : String) : Prop :=
  strLe s t = true

instance : DecidableRel StrLeRel := fun s t =>
  inferInstanceAs (Decidable (strLe s t = true))

/-- `df["Category"].unique()`: the distinct values in order of first
appearance; `seen` accumulates the values already emitted. -/
def uniqueFirstAux (seen : List String) : List String → List String
  | [] => []
  | c :: cs =>
    if c ∈ seen then uniqueFirstAux seen cs
    else c :: uniqueFirstAux (c :: seen) cs

/-- `df["Category"].unique()` converted to a list. -/
def uniqueFirst (l : List String) : List String :=
  uniqueFirstAux [] l

/-- `sorted(df["Category"].unique())` (main.py:63).  Python's `sorted` is
a stable sort by `<`; `insertionSort` by the corresponding total preorder
is such a sort. -/
def categories (records : List Record) : List String :=
  (uniqueFirst (records.map (fun r => r.category))).insertionSort StrLeRel

/-- The comparison used by
`sort_values(by=["Last Names", "Title"])` (main.py:76): lexicographic on
the pair (formatted last names, title).  Multi-column `sort_values` is a
stable lexicographic sort. -/
def rowLe (p q : String × Record) : Bool :=
  if p.1 = q.1 then chLe p.2.title.data q.2.title.data
  else chLt p.1.data q.1.data

/-- `rowLe` as a relation, for use with `List.insertionSort`. -/
def RowLeRel (p q : String × Record) : Prop :=
  rowLe p q = true

instance : DecidableRel RowLeRel := fun p q =>
  inferInstanceAs (Decidable (rowLe p q = true))

/-- The stable sort of a category's rows (main.py:76); each row is paired
with its computed "Last Names" column.  `sort_values` on several columns
is a stable sort (numpy `lexsort`); `insertionSort` is the corresponding
stable sort in Lean. -/
def sortRows (xs : List (String × Record)) : List (String × Record) :=
  xs.insertionSort RowLeRel

/-- `category_df["Author(s)"].apply(get_last_names)` (main.py:73): compute
the "Last Names" column, raising (`none`) if any row raises. -/
def lastNamesFor : List Record → Option (List (String × Record))
  | [] => some []
  | r :: rs =>
    match getLastNames r.authors with
    | none => none
    | some ln => (lastNamesFor rs).map (fun rest => (ln, r) :: rest)

/-- The ISBN column of one rendered row (main.py:87-94).  Note that in the
final `else` branch the source writes `isbn`, which holds
`row["ISBN-13"]`. -/
def isbnCell (r : Record) : String :=
  if r.isbn10 = "Pre-ISBN" then "Pre-ISBN"
  else if r.isbn10 = "No ISBN" then "No ISBN"
  else if r.isbn10 = "LCCN" then "LCCN: " ++ r.isbn13
  else r.isbn13

/-- One rendered data row (main.py:87-94). -/
def renderRow (lastNames : String) (r : Record) : String :=
  "| " ++ lastNames ++ " | *" ++ r.title ++ "* | " ++ isbnCell r ++ " |\n"

/-- The data rows of one category's table: filter, compute last names,
sort, render (main.py:70-94). -/
def tableFor (records : List Record) (c : String) : Option (List String) :=
  (lastNamesFor (records.filter (fun r => r.category = c))).map
    (fun xs => (sortRows xs).map (fun p => renderRow p.1 p.2))

/-- The fixed table header lines (main.py:78-79). -/
def tableHeader : String :=
  "| Author | Title | ISBN |\n| ------ | ----- | ---- |\n"

/-- Everything written for one category after its heading: header lines,
data rows, trailing blank line (main.py:78-96). -/
def renderTable (rows : List String) : String :=
  tableHeader ++ String.join rows ++ "\n"

/-- The `for category in categories` loop (main.py:66-96), threading the
file contents written so far.  A failure in `get_last_names` aborts the
run; the heading of the failing category has already been written, so it
is part of the `error` payload (the file's final contents). -/
def processCats (records : List Record) : List String → String → Except String String
  | [], acc => .ok acc
  | c :: cs, acc =>
    match tableFor records c with
    | none => .error (acc ++ "## " ++ c ++ "\n\n")
    | some rows => processCats records cs (acc ++ "## " ++ c ++ "\n\n" ++ renderTable rows)

/-- One run of `md_from_csv` on the parsed records: `ok` holds the
complete output, `error` the partial output present in the file when the
exception propagates. -/
def mdRun (records : List Record) : Except String String :=
  processCats records (categories records) ""

/-- `md_from_csv`'s output on success. -/
def mdFromCsv (records : List Record) : Option String :=
  (mdRun records).toOption

/-- Contents of the destination file after a run of `md_from_csv`, given
its previous contents.  `open(md_path, mode="w")` (main.py:65) truncates
the file before the loop starts, so the previous contents never survive;
on an exception the `with` block closes the file, leaving the partial
output. -/
def fileAfter (_oldContents : String) (records : List Record) : String :=
  match mdRun records with
  | .ok s => s
  | .error p => p

/-! ### Order properties of the comparison functions -/

theorem chLt_irrefl : ∀ l : List Char, chLt l l = false
  | [] => rfl
  | a :: as => by simp [chLt, chLt_irrefl as]

theorem chLt_trans : ∀ a b c : List Char,
    chLt a b = true → chLt b c = true → chLt a c = true
  | [], [], _, h, _ => by simp [chLt] at h
  | [], _ :: _, [], _, h => by simp [chLt] at h
  | [], _ :: _, _ :: _, _, _ => rfl
  | _ :: _, [], _, h, _ => by simp [chLt] at h
  | _ :: _, _ :: _, [], _, h => by simp [chLt] at h
  | x :: xs, y :: ys, z :: zs, h1, h2 => by
    by_cases hxy : x = y <;> by_cases hyz : y = z
    · subst hxy; subst hyz
      simp only [chLt, if_pos rfl] at h1 h2 ⊢
      exact chLt_trans xs ys zs h1 h2
    · subst hxy
      simpa [chLt, hyz] using h2
    · subst hyz
      simpa [chLt, hxy] using h1
    · simp only [chLt, if_neg hxy, decide_eq_true_eq] at h1
      simp only [chLt, if_neg hyz, decide_eq_true_eq] at h2
      have hxz : x < z := lt_trans h1 h2
      simp [chLt, ne_of_lt hxz, hxz]

theorem chLt_asymm {a b : List Char} (h : chLt a b = true) : chLt b a = false := by
  by_contra hc
  have : chLt b a = true := by
    cases hba : chLt b a with
    | true => rfl
    | false => exact absurd hba hc
  have := chLt_trans a b a h this
  simp [chLt_irrefl] at this

theorem chLt_connex : ∀ a b : List Char, a ≠ b → chLt a b = true ∨ chLt b a = true
  | [], [], h => absurd rfl h
  | [], _ :: _, _ => Or.inl rfl
  | _ :: _, [], _ => Or.inr rfl
  | x :: xs, y :: ys, h => by
    by_cases hxy : x = y
    · subst hxy
      have hne : xs ≠ ys := fun e => h (by rw [e])
      rcases chLt_connex xs ys hne with h' | h'
      · exact Or.inl (by simpa [chLt] using h')
      · exact Or.inr (by simpa [chLt] using h')
    · rcases lt_or_gt_of_ne hxy with h' | h'
      · exact Or.inl (by simp [chLt, hxy, h'])
      · exact Or.inr (by simp [chLt, Ne.symm hxy, h'])

theorem chLe_refl (a : List Char) : chLe a a = true := by
  simp [chLe]

theorem chLe_trans {a b c : List Char}
    (h1 : chLe a b = true) (h2 : chLe b c = true) : chLe a c = true := by
  simp only [chLe, Bool.or_eq_true, decide_eq_true_eq] at h1 h2 ⊢
  rcases h1 with h1 | h1 <;> rcases h2 with h2 | h2
  · exact Or.inl (chLt_trans a b c h1 h2)
  · subst h2; exact Or.inl h1
  · subst h1; exact Or.inl h2
  · subst h1; exact Or.inr h2

theorem chLe_total (a b : List Char) : chLe a b = true ∨ chLe b a = true := by
  by_cases h : a = b
  · subst h; exact Or.inl (chLe_refl a)
  · rcases chLt_connex a b h with h' | h'
    · exact Or.inl (by simp [chLe, h'])
    · exact Or.inr (by simp [chLe, h'])

theorem string_data_ne {s t : String} (h : s ≠ t) : s.data ≠ t.data := by
  intro e
  apply h
  cases s
  cases t
  exact congrArg String.mk e

instance : IsTrans String StrLeRel where
  trans a _ _ h1 h2 := chLe_trans (a := a.data) h1 h2

instance : IsTotal String StrLeRel where
  total a b := chLe_total a.data b.data

theorem rowLeRel_trans (p q r : String × Record)
    (h1 : RowLeRel p q) (h2 : RowLeRel q r) : RowLeRel p r := by
  unfold RowLeRel rowLe at h1 h2 ⊢
  by_cases hpq : p.1 = q.1 <;> by_cases hqr : q.1 = r.1
  · rw [if_pos hpq] at h1
    rw [if_pos hqr] at h2
    rw [if_pos (hpq.trans hqr)]
    exact chLe_trans h1 h2
  · rw [if_neg hqr] at h2
    have hpr : p.1 ≠ r.1 := fun e => hqr (hpq.symm.trans e)
    rw [if_neg hpr, hpq]
    exact h2
  · rw [if_neg hpq] at h1
    have hpr : p.1 ≠ r.1 := fun e => hpq (e.trans hqr.symm)
    rw [if_neg hpr, ← hqr]
    exact h1
  · rw [if_neg hpq] at h1
    rw [if_neg hqr] at h2
    have hlt : chLt p.1.data r.1.data = true := chLt_trans _ _ _ h1 h2
    have hpr : p.1 ≠ r.1 := by
      intro e
      rw [e] at h1
      have := chLt_asymm h1
      rw [this] at h2
      exact Bool.false_ne_true h2
    rw [if_neg hpr]
    exact hlt

instance : IsTrans (String × Record) RowLeRel where
  trans := rowLeRel_trans

theorem rowLeRel_total (p q : String × Record) : RowLeRel p q ∨ RowLeRel q p := by
  unfold RowLeRel rowLe
  by_cases hpq : p.1 = q.1
  · rw [if_pos hpq, if_pos hpq.symm]
    exact chLe_total _ _
  · rw [if_neg hpq, if_neg (Ne.symm hpq)]
    exact chLt_connex _ _ (string_data_ne hpq)

instance : IsTotal (String × Record) RowLeRel where
  total := rowLeRel_total

/-! ### Claim C5 -/

/-- C5: on the author substring `"Jr."`, `get_last_names` splits it into the
one-element token list `["Jr."]`, so `parts[-1] == "Jr."` holds and the
`parts[-2]` access is out of range: the loop body reaches the error branch
(modelled as `FormatResult.error`, i.e. `none` for the whole call). -/
theorem claim5_jr_error_branch_reachable :
    pysplit "Jr." = ["Jr."] ∧
      formatAuthor "Jr." = FormatResult.error ∧
      getLastNames "Jr." = none := by
  decide

/-! ### Claim C9 -/

/-- C9: whenever the author field splits into zero non-empty author
substrings, `get_last_names` fails: `formatted_authors` stays empty and
`formatted_authors[0]` raises `IndexError` (modelled as `none`). -/
theorem claim9_empty_author_list_fails (f : String) (h : authorList f = []) :
    getLastNames f = none := by
  unfold getLastNames
  rw [h]
  rfl

theorem claim9_empty_author_list_fails_witness :
    authorList "," = [] ∧ getLastNames "," = none :=
  ⟨by decide, claim9_empty_author_list_fails "," (by decide)⟩

/-! ### Claim C4 -/

/-- C4 counterexample: `"Jr."` is a non-empty trimmed author substring not
containing `"et al."` and consisting of a single token, but the code does
not return that token as-is — it raises `IndexError` (the error branch of
the embedding). -/
theorem claim4_counterexample :
    containsSub "Jr." "et al." = false ∧
      formatAuthor "Jr." ≠ FormatResult.name "Jr." ∧
      getLastNames "Jr." ≠ some "Jr." := by
  decide

/-- C4 (amended): for an author substring not containing `"et al."` whose
token list is non-empty, the extracted last name is the final token,
unless the final token is exactly `"Jr."`, in which case — provided at
least two tokens exist — it is the second-to-last token.  (The sole-token
`"Jr."` case instead reaches the out-of-range `parts[-2]` access, see
C5.) -/
theorem claim4_last_name_extraction (a t : String)
    (het : containsSub a "et al." = false)
    (hlast : (pysplit a).getLast? = some t)
    (hjr : t = "Jr." → 2 ≤ (pysplit a).length) :
    formatAuthor a = FormatResult.name
      (if t = "Jr." then (pysplit a).getD ((pysplit a).length - 2) ""
       else t) := by
  unfold formatAuthor
  rw [het]
  simp only [Bool.false_eq_true, if_false, hlast]
  by_cases hj : t = "Jr."
  · rw [if_pos hj, if_pos hj, if_pos (hjr hj)]
  · rw [if_neg hj, if_neg hj]

theorem claim4_last_name_extraction_witness :
    formatAuthor "Jane Smith Jr." = FormatResult.name "Smith" ∧
      formatAuthor "Single" = FormatResult.name "Single" := by
  constructor
  · exact (claim4_last_name_extraction "Jane Smith Jr." "Jr." (by decide) (by decide)
      (fun _ => by decide)).trans (by decide)
  · exact (claim4_last_name_extraction "Single" "Single" (by decide) (by decide)
      (fun h => by exact absurd h (by decide))).trans (by decide)

/-! ### Claim C1 -/

/-- C1 counterexample: a record whose `ISBN-10` field is the ordinary value
`"0-123-45678-9"` (none of the three sentinels) renders with the `ISBN-13`
field value `"9780123456786"` in the ISBN column; the `ISBN-10` value
appears nowhere in the output. -/
theorem claim1_counterexample :
    mdFromCsv [⟨"Fic", "John Doe", "Book", "0-123-45678-9", "9780123456786"⟩] =
        some "## Fic\n\n| Author | Title | ISBN |\n| ------ | ----- | ---- |\n| Doe | *Book* | 9780123456786 |\n\n" ∧
      ("0-123-45678-9" ≠ "Pre-ISBN" ∧ "0-123-45678-9" ≠ "No ISBN" ∧
        "0-123-45678-9" ≠ "LCCN") ∧
      containsSub
        "## Fic\n\n| Author | Title | ISBN |\n| ------ | ----- | ---- |\n| Doe | *Book* | 9780123456786 |\n\n"
        "0-123-45678-9" = false := by
  decide

/-- C1 (amended): for every rendered row whose `ISBN-10` field value is
none of `"Pre-ISBN"`, `"No ISBN"`, `"LCCN"`, the ISBN column of the
emitted Markdown row contains the literal value of the record's `ISBN-13`
field (the source writes the variable `isbn`, which holds
`row["ISBN-13"]`). -/
theorem claim1_default_renders_isbn13 (ln : String) (r : Record)
    (h1 : r.isbn10 ≠ "Pre-ISBN") (h2 : r.isbn10 ≠ "No ISBN")
    (h3 : r.isbn10 ≠ "LCCN") :
    renderRow ln r =
      "| " ++ ln ++ " | *" ++ r.title ++ "* | " ++ r.isbn13 ++ " |\n" := by
  unfold renderRow isbnCell
  rw [if_neg h1, if_neg h2, if_neg h3]

theorem claim1_default_renders_isbn13_witness :
    renderRow "Doe" ⟨"Fic", "John Doe", "Book", "0-123-45678-9", "9780123456786"⟩ =
      "| Doe | *Book* | 9780123456786 |\n" := by
  exact (claim1_default_renders_isbn13 "Doe"
    ⟨"Fic", "John Doe", "Book", "0-123-45678-9", "9780123456786"⟩
    (by decide) (by decide) (by decide)).trans (by decide)

/-! ### Claim C10 -/

/-- C10: the conversion is deterministic — two runs on identical parsed
input produce byte-identical output file contents, whatever the
destination file held before each run (in particular, a second run on the
file produced by a first run). -/
theorem claim10_deterministic (records₁ records₂ : List Record)
    (old₁ old₂ : String) (h : records₁ = records₂) :
    fileAfter old₁ records₁ = fileAfter old₂ records₂ := by
  subst h
  rfl

theorem claim10_deterministic_witness :
    fileAfter "" [⟨"Fic", "John Doe", "Book", "1", "2"⟩] =
      fileAfter "previous contents" [⟨"Fic", "John Doe", "Book", "1", "2"⟩] :=
  claim10_deterministic _ _ "" "previous contents" rfl

/-! ### Claim C7 -/

/-- C7: once the `formatted_authors` list is built, a list with at least
two entries is joined with `", "` between all but the last and `" & "`
before the last, and a one-entry list is returned unchanged. -/
theorem claim7_join_logic (f : String) (xs : List String)
    (h : formatAll (authorList f) = some xs) :
    (2 ≤ xs.length →
      getLastNames f = some (joinSep ", " xs.dropLast ++ " & " ++ xs.getLastD ""))
    ∧ (∀ x, xs = [x] → getLastNames f = some x) := by
  constructor
  · intro hlen
    unfold getLastNames
    rw [h]
    cases xs with
    | nil => simp at hlen
    | cons x t =>
      cases t with
      | nil => simp at hlen
      | cons y r => rfl
  · intro x hx
    subst hx
    unfold getLastNames
    rw [h]
    rfl

theorem claim7_join_logic_witness :
    getLastNames "A. One and B. Two" = some "One & Two" ∧
      getLastNames "A. One, B. Two, C. Three" = some "One, Two & Three" ∧
      getLastNames "Single" = some "Single" := by
  refine ⟨?_, ?_, ?_⟩
  · exact ((claim7_join_logic "A. One and B. Two" ["One", "Two"]
      (by decide)).1 (by decide)).trans (by decide)
  · exact ((claim7_join_logic "A. One, B. Two, C. Three" ["One", "Two", "Three"]
      (by decide)).1 (by decide)).trans (by decide)
  · exact (claim7_join_logic "Single" ["Single"] (by decide)).2 "Single" rfl

/-! ### Claim C8 -/

theorem occurs_refl (l : List Char) : l <:+: l :=
  ⟨[], [], by simp⟩

theorem occursIn_append_left (w : List Char) {l m : List Char} (h : l <:+: m) :
    l <:+: w ++ m := by
  obtain ⟨s, t, rfl⟩ := h
  exact ⟨w ++ s, t, by simp⟩

theorem occursIn_append_right (w : List Char) {l m : List Char} (h : l <:+: m) :
    l <:+: m ++ w := by
  obtain ⟨s, t, rfl⟩ := h
  exact ⟨s, t ++ w, by simp⟩

/-- Every element of a joined list occurs verbatim inside the join. -/
theorem mem_joinSep_occurs (sep : String) :
    ∀ (xs : List String) (a : String), a ∈ xs → a.data <:+: (joinSep sep xs).data
  | [x], a, ha => by
    rw [List.mem_singleton] at ha
    subst ha
    exact occurs_refl _
  | x :: y :: rest, a, ha => by
    rw [joinSep]
    rcases List.mem_cons.mp ha with h | h
    · subst h
      exact ⟨[], sep.data ++ (joinSep sep (y :: rest)).data, by simp⟩
    · have ih := mem_joinSep_occurs sep (y :: rest) a h
      obtain ⟨s, t, hst⟩ := ih
      exact ⟨x.data ++ sep.data ++ s, t, by simp [hst]⟩

/-- An author substring containing `"et al."` is appended to
`formatted_authors` verbatim, so it is an element of the built list. -/
theorem formatAll_mem_of_et_al :
    ∀ (as : List String) (a : String) (xs : List String),
      a ∈ as → containsSub a "et al." = true → formatAll as = some xs → a ∈ xs
  | b :: bs, a, xs, ha, het, hall => by
    rcases List.mem_cons.mp ha with h | h
    · subst h
      have hfa : formatAuthor a = FormatResult.name a := by
        unfold formatAuthor
        rw [het]
        rfl
      simp only [formatAll, hfa] at hall
      obtain ⟨rest, _, rfl⟩ := Option.map_eq_some'.mp hall
      exact List.mem_cons_self a rest
    · cases hfb : formatAuthor b with
      | error =>
        simp only [formatAll, hfb] at hall
        exact Option.noConfusion hall
      | skipped =>
        simp only [formatAll, hfb] at hall
        exact formatAll_mem_of_et_al bs a xs h het hall
      | name s =>
        simp only [formatAll, hfb] at hall
        obtain ⟨rest, hrest, rfl⟩ := Option.map_eq_some'.mp hall
        exact List.mem_cons_of_mem s (formatAll_mem_of_et_al bs a rest h het hrest)

theorem str_occurs_extend_right (w : String) {a j : String}
    (h : a.data <:+: j.data) : a.data <:+: (j ++ w).data := by
  rw [String.data_append]
  exact occursIn_append_right _ h

theorem str_occurs_extend_left (w : String) {a j : String}
    (h : a.data <:+: j.data) : a.data <:+: (w ++ j).data := by
  rw [String.data_append]
  exact occursIn_append_left _ h

/-- Every element of `formatted_authors` occurs verbatim in the returned
display string. -/
theorem mem_joinNames_occurs (xs : List String) (a res : String)
    (ha : a ∈ xs) (hres : joinNames xs = some res) : a.data <:+: res.data := by
  cases xs with
  | nil => cases ha
  | cons x t =>
    cases t with
    | nil =>
      rw [List.mem_singleton] at ha
      subst ha
      rw [joinNames, Option.some.injEq] at hres
      rw [← hres]
    | cons y r =>
      rw [joinNames, Option.some.injEq] at hres
      rw [← hres]
      have hne : x :: y :: r ≠ ([] : List String) := by simp
      rw [← List.dropLast_append_getLast hne] at ha
      rcases List.mem_append.mp ha with h | h
      · exact str_occurs_extend_right _
          (str_occurs_extend_right _ (mem_joinSep_occurs ", " _ a h))
      · rw [List.mem_singleton] at h
        have hlast : (x :: y :: r).getLastD "" = a := by
          rw [h]
          rfl
        rw [hlast]
        exact str_occurs_extend_left _ (occurs_refl _)

/-- C8: an author substring containing `"et al."` appears verbatim, with no
last-name extraction, inside the display string `get_last_names`
returns. -/
theorem claim8_et_al_verbatim (f a res : String)
    (ha : a ∈ authorList f)
    (het : containsSub a "et al." = true)
    (hres : getLastNames f = some res) :
    a.data <:+: res.data := by
  unfold getLastNames at hres
  cases hall : formatAll (authorList f) with
  | none => rw [hall] at hres; cases hres
  | some xs =>
    rw [hall] at hres
    exact mem_joinNames_occurs xs a res
      (formatAll_mem_of_et_al (authorList f) a xs ha het hall) hres

theorem claim8_et_al_verbatim_witness :
    ("J. Doe et al." : String).data <:+: ("J. Doe et al. & Smith" : String).data :=
  claim8_et_al_verbatim "J. Doe et al. and A. Smith" "J. Doe et al."
    "J. Doe et al. & Smith" (by decide) (by decide) (by decide)

/-! ### Claim C2 -/

/-- The output written for a list of fully processed categories: heading,
header lines, data rows and blank line for each. -/
def renderedPrefix (records : List Record) : List String → String
  | [] => ""
  | c :: cs =>
    "## " ++ c ++ "\n\n" ++ renderTable ((tableFor records c).getD []) ++
      renderedPrefix records cs

/-- If every category before `c` renders and `c`'s table raises, the run
errors out with exactly the previously accumulated text, the rendered
earlier categories, and `c`'s already-written heading. -/
theorem processCats_error (records : List Record) (c : String) (cs₂ : List String)
    (hfail : tableFor records c = none) :
    ∀ (cs₁ : List String) (acc : String),
      (∀ c' ∈ cs₁, (tableFor records c').isSome = true) →
      processCats records (cs₁ ++ c :: cs₂) acc =
        Except.error (acc ++ (renderedPrefix records cs₁ ++ ("## " ++ c ++ "\n\n")))
  | [], acc, _ => by
    simp only [List.nil_append, processCats, hfail, renderedPrefix,
      String.empty_append, String.append_assoc]
  | c' :: cs₁, acc, hok => by
    have hc' : (tableFor records c').isSome = true := hok c' (List.mem_cons_self c' cs₁)
    obtain ⟨rows, hrows⟩ := Option.isSome_iff_exists.mp hc'
    simp only [List.cons_append, processCats, hrows, List.append_eq]
    rw [processCats_error records c cs₂ hfail cs₁ _
      (fun d hd => hok d (List.mem_cons_of_mem c' hd))]
    simp only [renderedPrefix, hrows, Option.getD_some, String.append_assoc]

/-- C2 (amended): `md_from_csv` is not atomic.  The destination is opened
in write (truncating) mode before any processing, so when the conversion
fails at some category the file is left holding the partial output — the
fully rendered earlier category tables plus the failing category's
heading — regardless of what it held before. -/
theorem claim2_not_atomic (old : String) (records : List Record)
    (cs₁ cs₂ : List String) (c : String)
    (hcats : categories records = cs₁ ++ c :: cs₂)
    (hok : ∀ c' ∈ cs₁, (tableFor records c').isSome = true)
    (hfail : tableFor records c = none) :
    fileAfter old records =
      renderedPrefix records cs₁ ++ ("## " ++ c ++ "\n\n") := by
  unfold fileAfter mdRun
  rw [hcats, processCats_error records c cs₂ hfail cs₁ "" hok]
  rw [String.empty_append]

/-- C2 counterexample: for a record whose author field is empty the
conversion fails, yet the destination file — which held `"old contents"` —
now holds the partial output `"## A\n\n"`: the file was mutated on a
failing run. -/
theorem claim2_counterexample :
    mdFromCsv [⟨"A", "", "T", "i", "j"⟩] = none ∧
      fileAfter "old contents" [⟨"A", "", "T", "i", "j"⟩] = "## A\n\n" ∧
      "## A\n\n" ≠ "old contents" := by
  decide

theorem claim2_not_atomic_witness :
    fileAfter "old contents"
        [⟨"A", "X Y", "T1", "1", "2"⟩, ⟨"B", "", "T2", "1", "2"⟩] =
      "## A\n\n| Author | Title | ISBN |\n| ------ | ----- | ---- |\n| Y | *T1* | 2 |\n\n## B\n\n" := by
  have h := claim2_not_atomic "old contents"
    [⟨"A", "X Y", "T1", "1", "2"⟩, ⟨"B", "", "T2", "1", "2"⟩]
    ["A"] [] "B" (by decide) (by decide) (by decide)
  exact h.trans (by decide)

/-! ### Claim C3 -/

/-- C3: within a category table, the emitted data rows are the rows of that
category sorted by the key (formatted last name, title): the sorted list
is pairwise `≤` in that lexicographic order, and rows with equal sort keys
keep their original relative order (the sort is stable). -/
theorem claim3_rows_sorted_stable (records : List Record) (c : String)
    (xs : List (String × Record))
    (h : lastNamesFor (records.filter (fun r => r.category = c)) = some xs) :
    tableFor records c = some ((sortRows xs).map (fun p => renderRow p.1 p.2))
    ∧ (sortRows xs).Pairwise RowLeRel
    ∧ ∀ k : String × String,
        (sortRows xs).filter (fun p => (p.1, p.2.title) = k) =
          xs.filter (fun p => (p.1, p.2.title) = k) := by
  refine ⟨?_, ?_, ?_⟩
  · unfold tableFor
    rw [h]
    rfl
  · exact List.sorted_insertionSort RowLeRel xs
  · intro k
    have hApw : (xs.filter (fun p => (p.1, p.2.title) = k)).Pairwise RowLeRel := by
      apply List.pairwise_of_forall_mem_list
      intro a ha b hb
      have hak : (a.1, a.2.title) = k := of_decide_eq_true (List.mem_filter.mp ha).2
      have hbk : (b.1, b.2.title) = k := of_decide_eq_true (List.mem_filter.mp hb).2
      have h1 : a.1 = b.1 :=
        (congrArg Prod.fst hak).trans (congrArg Prod.fst hbk).symm
      have h2 : a.2.title = b.2.title :=
        (congrArg Prod.snd hak).trans (congrArg Prod.snd hbk).symm
      unfold RowLeRel rowLe
      rw [if_pos h1, h2]
      exact chLe_refl _
    have hsub : List.Sublist (xs.filter (fun p => (p.1, p.2.title) = k)) (sortRows xs) :=
      List.sublist_insertionSort hApw (List.filter_sublist xs)
    have hfilter_eq : (xs.filter (fun p => (p.1, p.2.title) = k)).filter
        (fun p => (p.1, p.2.title) = k) = xs.filter (fun p => (p.1, p.2.title) = k) :=
      List.filter_eq_self.mpr (fun a ha => (List.mem_filter.mp ha).2)
    have hsub2 := hsub.filter (fun p => decide ((p.1, p.2.title) = k))
    rw [hfilter_eq] at hsub2
    have hperm : List.Perm ((sortRows xs).filter (fun p => (p.1, p.2.title) = k))
        (xs.filter (fun p => (p.1, p.2.title) = k)) :=
      (List.perm_insertionSort RowLeRel xs).filter _
    exact (hsub2.eq_of_length hperm.length_eq.symm).symm

theorem claim3_rows_sorted_stable_witness :
    tableFor [⟨"X", "A B", "T", "1", "2"⟩, ⟨"X", "C B", "T", "1", "3"⟩] "X" =
        some ["| B | *T* | 2 |\n", "| B | *T* | 3 |\n"] ∧
      (sortRows [("B", ⟨"X", "A B", "T", "1", "2"⟩), ("B", ⟨"X", "C B", "T", "1", "3"⟩)]).filter
          (fun p => (p.1, p.2.title) = ("B", "T")) =
        [("B", ⟨"X", "A B", "T", "1", "2"⟩), ("B", ⟨"X", "C B", "T", "1", "3"⟩)] := by
  have h := claim3_rows_sorted_stable
    [⟨"X", "A B", "T", "1", "2"⟩, ⟨"X", "C B", "T", "1", "3"⟩] "X"
    [("B", ⟨"X", "A B", "T", "1", "2"⟩), ("B", ⟨"X", "C B", "T", "1", "3"⟩)]
    (by decide)
  exact ⟨h.1.trans (by decide), (h.2.2 ("B", "T")).trans (by decide)⟩

/-! ### Claim C6 -/

theorem uniqueFirstAux_mem : ∀ (l seen : List String) (x : String),
    x ∈ uniqueFirstAux seen l ↔ x ∈ l ∧ x ∉ seen
  | [], seen, x => by simp [uniqueFirstAux]
  | c :: cs, seen, x => by
    rw [uniqueFirstAux]
    by_cases hc : c ∈ seen
    · rw [if_pos hc, uniqueFirstAux_mem cs seen x, List.mem_cons]
      constructor
      · rintro ⟨h1, h2⟩
        exact ⟨Or.inr h1, h2⟩
      · rintro ⟨h1 | h1, h2⟩
        · exact absurd (h1 ▸ hc) h2
        · exact ⟨h1, h2⟩
    · rw [if_neg hc, List.mem_cons, List.mem_cons, uniqueFirstAux_mem cs (c :: seen) x,
        List.mem_cons]
      constructor
      · rintro (rfl | ⟨h1, h2⟩)
        · exact ⟨Or.inl rfl, hc⟩
        · exact ⟨Or.inr h1, fun hx => h2 (Or.inr hx)⟩
      · rintro ⟨h1 | h1, h2⟩
        · exact Or.inl h1
        · by_cases hx : x = c
          · exact Or.inl hx
          · exact Or.inr ⟨h1, fun hmem => h2 (hmem.resolve_left hx)⟩

theorem uniqueFirstAux_nodup : ∀ (l seen : List String), (uniqueFirstAux seen l).Nodup
  | [], _ => List.nodup_nil
  | c :: cs, seen => by
    rw [uniqueFirstAux]
    by_cases hc : c ∈ seen
    · rw [if_pos hc]
      exact uniqueFirstAux_nodup cs seen
    · rw [if_neg hc]
      refine List.nodup_cons.mpr ⟨?_, uniqueFirstAux_nodup cs (c :: seen)⟩
      intro hmem
      exact ((uniqueFirstAux_mem cs (c :: seen) c).mp hmem).2 (List.mem_cons_self c seen)

theorem mem_categories (records : List Record) (c : String) :
    c ∈ categories records ↔ c ∈ records.map (fun r => r.category) := by
  unfold categories uniqueFirst
  rw [List.mem_insertionSort, uniqueFirstAux_mem]
  simp

theorem categories_nodup (records : List Record) : (categories records).Nodup :=
  (List.perm_insertionSort StrLeRel _).nodup_iff.mpr (uniqueFirstAux_nodup _ [])

theorem sum_map_add (cs : List String) (f g : String → Nat) :
    (cs.map (fun c => f c + g c)).sum = (cs.map f).sum + (cs.map g).sum := by
  induction cs with
  | nil => rfl
  | cons c cs ih =>
    simp only [List.map_cons, List.sum_cons, ih]
    omega

theorem sum_indicator_zero (x : String) :
    ∀ cs : List String, x ∉ cs → (cs.map (fun c => if x = c then 1 else 0)).sum = 0
  | [], _ => rfl
  | c :: cs, h => by
    have hxc : x ≠ c := fun e => h (e ▸ List.mem_cons_self c cs)
    simp [hxc, sum_indicator_zero x cs (fun hx => h (List.mem_cons_of_mem c hx))]

theorem sum_indicator_one (x : String) :
    ∀ cs : List String, cs.Nodup → x ∈ cs →
      (cs.map (fun c => if x = c then 1 else 0)).sum = 1
  | [], _, hmem => absurd hmem (List.not_mem_nil x)
  | c :: cs, hnd, hmem => by
    rcases List.mem_cons.mp hmem with rfl | h
    · simp [sum_indicator_zero x cs (List.nodup_cons.mp hnd).1]
    · have hxc : x ≠ c := by
        intro e
        subst e
        exact (List.nodup_cons.mp hnd).1 h
      simp [hxc, sum_indicator_one x cs (List.nodup_cons.mp hnd).2 h]

/-- Summing the per-category filtered row counts over a duplicate-free
category list covering all records counts every record exactly once. -/
theorem sum_filter_lengths :
    ∀ (records : List Record) (cs : List String), cs.Nodup →
      (∀ r ∈ records, r.category ∈ cs) →
      (cs.map (fun c => (records.filter (fun r => r.category = c)).length)).sum =
        records.length
  | [], cs, _, _ => by simp
  | r :: rs, cs, hnd, hcov => by
    have hmap : ((cs.map (fun c => ((r :: rs).filter (fun x => x.category = c)).length)) :
        List Nat) =
        cs.map (fun c => (if r.category = c then 1 else 0) +
          ((rs.filter (fun x => x.category = c)).length)) := by
      apply List.map_congr_left
      intro c _
      rw [List.filter_cons]
      by_cases hrc : r.category = c
      · simp [hrc]
        omega
      · simp [hrc]
    rw [hmap, sum_map_add,
      sum_indicator_one r.category cs hnd (hcov r (List.mem_cons_self r rs)),
      sum_filter_lengths rs cs hnd (fun x hx => hcov x (List.mem_cons_of_mem r hx))]
    simp [Nat.add_comm]

theorem lastNamesFor_length :
    ∀ (rs : List Record) (xs : List (String × Record)),
      lastNamesFor rs = some xs → xs.length = rs.length
  | [], xs, h => by
    rw [lastNamesFor, Option.some.injEq] at h
    rw [← h]
    rfl
  | r :: rs, xs, h => by
    cases hg : getLastNames r.authors with
    | none =>
      simp only [lastNamesFor, hg] at h
      exact Option.noConfusion h
    | some ln =>
      simp only [lastNamesFor, hg] at h
      obtain ⟨rest, hrest, rfl⟩ := Option.map_eq_some'.mp h
      simp [lastNamesFor_length rs rest hrest]

theorem tableFor_length (records : List Record) (c : String) (rows : List String)
    (h : tableFor records c = some rows) :
    rows.length = (records.filter (fun r => r.category = c)).length := by
  unfold tableFor at h
  cases hl : lastNamesFor (records.filter (fun r => r.category = c)) with
  | none =>
    rw [hl] at h
    exact Option.noConfusion h
  | some xs =>
    rw [hl, Option.map_some', Option.some.injEq] at h
    rw [← h, List.length_map, sortRows, List.length_insertionSort]
    exact lastNamesFor_length _ xs hl

theorem lastNamesFor_isSome :
    ∀ rs : List Record, (∀ r ∈ rs, (getLastNames r.authors).isSome = true) →
      ∃ xs, lastNamesFor rs = some xs
  | [], _ => ⟨[], rfl⟩
  | r :: rs, h => by
    obtain ⟨ln, hln⟩ := Option.isSome_iff_exists.mp (h r (List.mem_cons_self r rs))
    obtain ⟨xs, hxs⟩ := lastNamesFor_isSome rs (fun x hx => h x (List.mem_cons_of_mem r hx))
    exact ⟨(ln, r) :: xs, by simp [lastNamesFor, hln, hxs]⟩

theorem tableFor_isSome (records : List Record) (c : String)
    (h : ∀ r ∈ records, (getLastNames r.authors).isSome = true) :
    ∃ rows, tableFor records c = some rows := by
  obtain ⟨xs, hxs⟩ := lastNamesFor_isSome (records.filter (fun r => r.category = c))
    (fun r hr => h r (List.mem_of_mem_filter hr))
  exact ⟨_, by rw [tableFor, hxs, Option.map_some']⟩

theorem tables_exist (records : List Record)
    (h : ∀ r ∈ records, (getLastNames r.authors).isSome = true) :
    ∀ cs : List String, ∃ tables : List (List String),
      List.Forall₂ (fun c rows => tableFor records c = some rows) cs tables
      ∧ (tables.map List.length).sum =
          (cs.map (fun c => (records.filter (fun r => r.category = c)).length)).sum
  | [] => ⟨[], List.Forall₂.nil, rfl⟩
  | c :: cs => by
    obtain ⟨rows, hrows⟩ := tableFor_isSome records c h
    obtain ⟨tables, hf, hsum⟩ := tables_exist records h cs
    refine ⟨rows :: tables, List.Forall₂.cons hrows hf, ?_⟩
    simp [tableFor_length records c rows hrows, hsum]

/-- C6: the emitted category headings are the distinct `Category` values
sorted ascending and duplicate-free; every record's category appears as
exactly one heading (so each record belongs to exactly one table); and the
data rows across all tables add up to the number of input records. -/
theorem claim6_partition (records : List Record)
    (h : ∀ r ∈ records, (getLastNames r.authors).isSome = true) :
    (categories records).Pairwise StrLeRel
    ∧ (categories records).Nodup
    ∧ (∀ c, c ∈ categories records ↔ c ∈ records.map (fun r => r.category))
    ∧ (∀ r ∈ records, (categories records).count r.category = 1)
    ∧ ∃ tables : List (List String),
        List.Forall₂ (fun c rows => tableFor records c = some rows)
          (categories records) tables
        ∧ (tables.map List.length).sum = records.length := by
  refine ⟨List.sorted_insertionSort StrLeRel _, categories_nodup records,
    mem_categories records, ?_, ?_⟩
  · intro r hr
    exact List.count_eq_one_of_mem (categories_nodup records)
      ((mem_categories records r.category).mpr (List.mem_map.mpr ⟨r, hr, rfl⟩))
  · obtain ⟨tables, hf, hsum⟩ := tables_exist records h (categories records)
    refine ⟨tables, hf, ?_⟩
    rw [hsum]
    exact sum_filter_lengths records (categories records) (categories_nodup records)
      (fun r hr => (mem_categories records r.category).mpr (List.mem_map.mpr ⟨r, hr, rfl⟩))

/-- Sample input used to instantiate C6: three records in two categories,
listed with category `"B"` first so that sorting the headings is
visible. -/
def sampleRecords : List Record :=
  [⟨"B", "X Y", "T2", "1", "2"⟩, ⟨"A", "P Q", "T1", "1", "2"⟩,
    ⟨"B", "R S", "T3", "1", "2"⟩]

theorem claim6_partition_witness :
    (categories sampleRecords).count "B" = 1 ∧
      ∃ tables : List (List String),
        List.Forall₂ (fun c rows => tableFor sampleRecords c = some rows)
          (categories sampleRecords) tables
        ∧ (tables.map List.length).sum = 3 := by
  have h6 := claim6_partition sampleRecords (by decide)
  refine ⟨h6.2.2.2.1 ⟨"B", "X Y", "T2", "1", "2"⟩ (by decide), ?_⟩
  obtain ⟨tables, hf, hsum⟩ := h6.2.2.2.2
  exact ⟨tables, hf, by rw [hsum]; rfl⟩

end LibMd

